import Mathlib

/-!
Verification development for the perfectns analysis core
(`pns/analysis_utils.py` and `pns/maths_functions.py`).

The Python functions are shallowly embedded as Lean functions over a
linear ordered field: `ℚ` instantiations are used where the source only
does field arithmetic and comparisons, `ℝ` where `np.log` / `np.exp`
appear.  Failing `assert` statements, `KeyError` and `IndexError` are
modelled by an `Except` result; a NaN-able float bound is modelled as
`Option` (with `none` playing NaN, which compares false against
everything, as in numpy).
-/

namespace PNS

/-- Equality of `Except` results is decidable when it is on both sides. -/
instance instDecidableEqExcept {ε β : Type} [DecidableEq ε] [DecidableEq β] :
    DecidableEq (Except ε β) := fun a b =>
  match a, b with
  | .ok x, .ok y =>
    if h : x = y then .isTrue (by rw [h]) else .isFalse (by simp [h])
  | .error e, .error f =>
    if h : e = f then .isTrue (by rw [h]) else .isFalse (by simp [h])
  | .ok _, .error _ => .isFalse (by simp)
  | .error _, .ok _ => .isFalse (by simp)

/-- The error outcomes of the analysis code: failing `assert`s (carrying the
offending live-count array where the source interpolates it into the message),
`ValueError` from `np.min` of an empty array, a missing dict key, an
out-of-range index, `None[:, 0]` subscription, and the bootstrap-CI
insufficient-sample assertion. -/
inductive NSErr (α : Type) where
  | assertionFail (nlive_array : List α)
  | valueErrorEmptyMin
  | dynamicMissingRecords
  | bothBoundsNaN
  | keyError
  | indexError
  | noneSubscript
  | insufficientSamples
  deriving DecidableEq

/-- A row of `thread_logl_min_max`: `(logl_min, logl_max, multiplicity)`,
where a NaN bound is `none`. -/
structure LoglMM (α : Type) where
  logl_min : Option α
  logl_max : Option α
  mult : α
  deriving DecidableEq

/-- The slice of the settings dictionary the analysis code reads. -/
structure NSSettings (α : Type) where
  dynamic_goal : Option α
  nlive : ℕ
  nlive_1 : ℕ
  deriving DecidableEq

/-- A nested sampling run dictionary. `none` in `thread_logl_min_max` or
`nlive_array` means the key is absent; an absent thread is `none`. -/
structure NSRunDict (α : Type) where
  threads : List (Option (List (List α)))
  thread_logl_min_max : Option (List (LoglMM α))
  nlive_array : Option (List α)
  settings : NSSettings α
  deriving DecidableEq

variable {α : Type} [LinearOrderedField α]

/-- `np.cumsum` starting from a running total `s`. -/
def cumsumFrom (s : α) : List α → List α
  | [] => []
  | x :: xs => (s + x) :: cumsumFrom (s + x) xs

/-- `np.cumsum`. -/
def cumsum (xs : List α) : List α := cumsumFrom 0 xs

/-- `assert arr.min() > 0`: `np.min` of an empty array raises `ValueError`;
a non-positive minimum fails the assertion (the message carries the array). -/
def assertMinPos (arr : List α) : Except (NSErr α) Unit :=
  match arr with
  | [] => .error .valueErrorEmptyMin
  | x :: xs => if 0 < xs.foldl min x then .ok () else .error (.assertionFail (x :: xs))

/-- The pure value computed by `get_logx(nlive_array, simulate=False)`:
`np.cumsum(-1 * (nlive_array ** -1))`. -/
def get_logx_val (nlive_array : List α) : List α :=
  cumsum (nlive_array.map (fun n => -(n⁻¹)))

/-- `analysis_utils.get_logx` in deterministic mode: assert the live counts
are positive, then return the cumulative sum of the `-1/nlive` steps. -/
def get_logx (nlive_array : List α) : Except (NSErr α) (List α) := do
  let _ ← assertMinPos nlive_array
  return get_logx_val nlive_array

/-- `r[1] >= logl` where `r[1]` may be NaN (`none`): NaN compares false. -/
def nanGe (a : Option α) (b : α) : Bool :=
  match a with
  | none => false
  | some x => decide (b ≤ x)

/-- `logl > r[0]` where `r[0]` may be NaN (`none`): NaN compares false. -/
def nanLt (a : Option α) (b : α) : Bool :=
  match a with
  | none => false
  | some x => decide (x < b)

/-- `nlive_array[np.where(cond(logl))] += m`: add `m` at every index whose
log-likelihood satisfies `cond`. -/
def addWhere (arr logl : List α) (cond : α → Bool) (m : α) : List α :=
  List.zipWith (fun a L => if cond L then a + m else a) arr logl

/-- The three accumulation passes of the dynamic branch of `get_nlive`:
records with no minimum logl, records with no maximum logl, and records
with both bounds. -/
def nliveDyn (lmm_ar : List (LoglMM α)) (logl : List α) : List α :=
  let a0 : List α := logl.map (fun _ => 0)
  let a1 := (lmm_ar.filter (fun r => r.logl_min.isNone)).foldl
    (fun arr r => addWhere arr logl (fun L => nanGe r.logl_max L) r.mult) a0
  let a2 := (lmm_ar.filter (fun r => r.logl_max.isNone)).foldl
    (fun arr r => addWhere arr logl (fun L => nanLt r.logl_min L) r.mult) a1
  (lmm_ar.filter (fun r => r.logl_min.isSome && r.logl_max.isSome)).foldl
    (fun arr r => addWhere arr logl (fun L => nanGe r.logl_max L && nanLt r.logl_min L) r.mult) a2

/-- `nlive_array[-i] = v`: a negative numpy index `-i` is valid for
`1 ≤ i ≤ len`, otherwise `IndexError`. -/
def setNegIdx (arr : List α) (i : ℕ) (v : α) : Except (NSErr α) (List α) :=
  if 1 ≤ i ∧ i ≤ arr.length then .ok (arr.set (arr.length - i) v) else .error .indexError

/-- The loop `for i in range(1, nlive): nlive_array[-i] = i`. -/
def rampLoop : List ℕ → List α → Except (NSErr α) (List α)
  | [], arr => .ok arr
  | i :: rest, arr => do rampLoop rest (← setNegIdx arr i (i : α))

/-- The standard-run branch of `get_nlive`: a constant array at the fixed
live-point count, ramping down to 1 over the final `nlive - 1` samples. -/
def nliveStandard (nlive : ℕ) (logl : List α) : Except (NSErr α) (List α) :=
  rampLoop (List.range' 1 (nlive - 1)) (logl.map (fun _ => (nlive : α)))

/-- `get_nlive` before its final positivity assertion: the explicit
`nlive_array` if the key is present, else the standard ramp (after asserting
the run is not dynamic), else the three-pass interval accumulation (followed
by the no-record-with-both-bounds-NaN assertion). -/
def nliveBuild (run_dict : NSRunDict α) (logl : List α) : Except (NSErr α) (List α) :=
  match run_dict.nlive_array with
  | some arr => .ok arr
  | none =>
    match run_dict.thread_logl_min_max with
    | none =>
      match run_dict.settings.dynamic_goal with
      | some _ => .error .dynamicMissingRecords
      | none => nliveStandard run_dict.settings.nlive logl
    | some lmm_ar =>
      if (lmm_ar.filter (fun r => r.logl_min.isNone && r.logl_max.isNone)).length = 0 then
        .ok (nliveDyn lmm_ar logl)
      else .error .bothBoundsNaN

/-- `analysis_utils.get_nlive`: reconstruct the live-count array and assert
it is strictly positive before returning it. -/
def get_nlive (run_dict : NSRunDict α) (logl : List α) : Except (NSErr α) (List α) := do
  let arr ← nliveBuild run_dict logl
  let _ ← assertMinPos arr
  return arr

/-- Decidability of the `argsort` key comparison on sample rows
(first column = logl). -/
instance loglLeDec : DecidableRel (fun (a b : List α) => a.headD 0 ≤ b.headD 0) :=
  fun a b => inferInstanceAs (Decidable (a.headD 0 ≤ b.headD 0))

/-- `output[np.argsort(output[:, 0])]`: the rows rearranged into ascending
order of the first column (modelled with insertion sort; numpy's quicksort
gives some sorted permutation, ties unspecified). -/
def sortByLogl (rows : List (List α)) : List (List α) :=
  List.insertionSort (fun a b => a.headD 0 ≤ b.headD 0) rows

/-- One step of `merge_lrxp`'s accumulation loop: skip a `None` thread,
start from the first table, `np.vstack` (row-concatenate) later ones. -/
def vstackStep (output array : Option (List (List α))) : Option (List (List α)) :=
  match array with
  | none => output
  | some a =>
    match output with
    | none => some a
    | some o => some (o ++ a)

/-- `analysis_utils.merge_lrxp`: vstack every non-`None` thread in order,
then sort the rows by the logl column; all threads absent gives `None`. -/
def merge_lrxp (array_list : List (Option (List (List α)))) : Option (List (List α)) :=
  match array_list.foldl vstackStep none with
  | none => none
  | some o => some (sortByLogl o)

/-- A Python `for` loop collecting one `Except` result per element, stopping
at the first raised error. -/
def mapExcept {ε β γ : Type} (f : β → Except ε γ) : List β → Except ε (List γ)
  | [] => .ok []
  | x :: xs => do
    let y ← f x
    let ys ← mapExcept f xs
    return y :: ys

/-- `maths_functions.log_subtract`: `loga + np.log(1 - np.exp(logb - loga))`.
The assertion `loga >= logb` is commented out in the source, so this is a
total function with no error path. -/
noncomputable def log_subtract (loga logb : ℝ) : ℝ :=
  loga + Real.log (1 - Real.exp (logb - loga))

/-- `scipy.misc.logsumexp`: the stabilised reduction
`max + log(sum(exp(x - max)))`. -/
noncomputable def logsumexp (xs : List ℝ) : ℝ :=
  match xs with
  | [] => 0
  | x :: rest =>
    let m := rest.foldl max x
    m + Real.log (((x :: rest).map (fun y => Real.exp (y - m))).sum)

/-- The assignment sequence of `analysis_utils.get_logw` after `get_logx`:
prepend `logx = 0`, apply the vectorised trapezium rule
(`logw[:-1] = log_subtract(X[:-2], X[2:])`, the unassigned last slot holding
numpy's zero fill), subtract `log 2`, absorb the leading volume into
`logw[0]`, copy `logw[-2]` into `logw[-1]`, then add `logl`. -/
noncomputable def get_logw_val (logl gx : List ℝ) : List ℝ :=
  let logx_inc_start : List ℝ := 0 :: gx
  let n := logl.length
  let logw_a : List ℝ :=
    (List.zipWith log_subtract (logx_inc_start.take (n - 1)) (logx_inc_start.drop 2)) ++ [0]
  let logw_b := logw_a.map (fun w => w - Real.log 2)
  let logw_c := logw_b.set 0 (logsumexp [logw_b.headD 0,
      Real.log 0.5 + log_subtract (logx_inc_start.headD 0) (logx_inc_start.getD 1 0)])
  let logw_d := logw_c.set (n - 1) (logw_c.getD (n - 2) 0)
  List.zipWith (fun w L => w + L) logw_d logl

/-- `analysis_utils.get_logw` in deterministic mode.  A live-count/`logl`
length mismatch (numpy broadcast error) or fewer than two samples
(`logw[-2]` out of range) is an error. -/
noncomputable def get_logw (logl nlive_array : List ℝ) : Except (NSErr ℝ) (List ℝ) := do
  let gx ← get_logx nlive_array
  if gx.length = logl.length ∧ 2 ≤ logl.length then
    return get_logw_val logl gx
  else .error .indexError

/-- An estimator: a pure function of `(logw, logl, r, theta)`. -/
def Estimator : Type := List ℝ → List ℝ → List ℝ → List (List ℝ) → ℝ

/-- Column `j` of a sample table (`lrxp[:, j]`). -/
def col (j : ℕ) (rows : List (List ℝ)) : List ℝ := rows.map (fun row => row.getD j 0)

/-- The parameter block `lrxp[:, 3:]`. -/
def thetaCols (rows : List (List ℝ)) : List (List ℝ) := rows.map (fun row => row.drop 3)

/-- `analysis_utils.get_estimators`: one scalar per estimator, in order. -/
def get_estimators (lrxp : List (List ℝ)) (logw : List ℝ) (estimator_list : List Estimator) :
    List ℝ :=
  estimator_list.map (fun f => f logw (col 0 lrxp) (col 1 lrxp) (thetaCols lrxp))

/-- `analysis_utils.run_estimators` with the default `simulate=False`:
merge the threads (a `None` merge makes `lrxp[:, 0]` raise), reconstruct the
live counts, compute the deterministic weights, and evaluate the estimators. -/
noncomputable def run_estimators (ns_run : NSRunDict ℝ) (estimator_list : List Estimator) :
    Except (NSErr ℝ) (List ℝ) := do
  let lrxp ← match merge_lrxp ns_run.threads with
    | none => Except.error NSErr.noneSubscript
    | some m => Except.ok m
  let nlive ← get_nlive ns_run (col 0 lrxp)
  let logw ← get_logw (col 0 lrxp) nlive
  return get_estimators lrxp logw estimator_list

/-- An oracle for `np.random.randint(low, high, size)`: `randint low high size`
is the drawn index vector. -/
def RandInt : Type := ℕ → ℕ → ℕ → List ℕ

/-- `analysis_utils.bootstrap_resample_run`: draw thread indices (stratified
into initial and dynamically-added slots for a dynamic run when
`sample_ninit_sep`), then index both the thread list and the
`thread_logl_min_max` records with the same vector.  The records key is read
unconditionally: a run without it raises `KeyError`. -/
def bootstrap_resample_run (randint : RandInt) (ns_run : NSRunDict α)
    (sample_ninit_sep : Bool := true) : Except (NSErr α) (NSRunDict α) := do
  let n_threads := ns_run.threads.length
  let inds : List ℕ :=
    if ns_run.settings.dynamic_goal.isSome && sample_ninit_sep then
      randint 0 ns_run.settings.nlive_1 ns_run.settings.nlive_1 ++
        randint ns_run.settings.nlive_1 n_threads (n_threads - ns_run.settings.nlive_1)
    else
      randint 0 n_threads n_threads
  let threads_temp ← mapExcept (fun i =>
      if i < n_threads then Except.ok (ns_run.threads.getD i none)
      else Except.error NSErr.indexError) inds
  let lmm ← match ns_run.thread_logl_min_max with
    | none => Except.error NSErr.keyError
    | some l => Except.ok l
  let logl_min_max_temp ← mapExcept (fun i =>
      if i < lmm.length then Except.ok (lmm.getD i ⟨none, none, 0⟩)
      else Except.error NSErr.indexError) inds
  return { threads := threads_temp, thread_logl_min_max := some logl_min_max_temp,
           nlive_array := none, settings := ns_run.settings }

/-- `np.std(xs, ddof=1)`. -/
noncomputable def sampleStdDdof1 (xs : List ℝ) : ℝ :=
  Real.sqrt ((xs.map (fun x => (x - xs.sum / xs.length) ^ 2)).sum / (xs.length - 1))

/-- `analysis_utils.run_std_bootstrap`: `n_simulate` bootstrap resamples
(iteration `i` drawing through `randint i`), estimator values collected
column-wise, then a Bessel-corrected standard deviation per estimator. -/
noncomputable def run_std_bootstrap (randint : ℕ → RandInt) (ns_run : NSRunDict ℝ)
    (estimator_list : List Estimator) (n_simulate : ℕ) : Except (NSErr ℝ) (List ℝ) := do
  let bs_cols ← mapExcept (fun i => do
      let ns_run_temp ← bootstrap_resample_run (randint i) ns_run
      run_estimators ns_run_temp estimator_list) (List.range n_simulate)
  return (List.range estimator_list.length).map (fun j =>
      sampleStdDdof1 (bs_cols.map (fun c => c.getD j 0)))

/-- `np.interp(x, xp, fp)` for an increasing grid `xp`: clamp outside the
grid, linear interpolation inside. -/
noncomputable def npInterp (x : ℝ) : List ℝ → List ℝ → ℝ
  | x0 :: x1 :: xp, f0 :: f1 :: fp =>
    if x ≤ x0 then f0
    else if x ≤ x1 then f0 + (f1 - f0) * (x - x0) / (x1 - x0)
    else npInterp x (x1 :: xp) (f1 :: fp)
  | [_], f0 :: _ => f0
  | _, _ => 0

/-- `np.sort` (ascending) on a float vector. -/
noncomputable def npSort (xs : List ℝ) : List ℝ :=
  List.insertionSort (fun a b => a ≤ b) xs

/-- `analysis_utils.run_ci_bootstrap`: assert `min(cred_int, 1-cred_int) *
n_simulate > 1` before any resampling, build the bootstrap replicate matrix,
and return `2 * T(observed) - interp(1 - cred_int, (i+0.5)/n, sorted
replicates)` per estimator. -/
noncomputable def run_ci_bootstrap (randint : ℕ → RandInt) (ns_run : NSRunDict ℝ)
    (estimator_list : List Estimator) (n_simulate : ℕ) (cred_int : ℝ) :
    Except (NSErr ℝ) (List ℝ) := do
  if min cred_int (1 - cred_int) * (n_simulate : ℝ) > 1 then
    let bs_cols ← mapExcept (fun i => do
        let ns_run_temp ← bootstrap_resample_run (randint i) ns_run
        run_estimators ns_run_temp estimator_list) (List.range n_simulate)
    let expected_estimators ← run_estimators ns_run estimator_list
    let cdf := (List.range n_simulate).map (fun j => ((j : ℝ) + 0.5) / (n_simulate : ℝ))
    return (List.range estimator_list.length).map (fun i =>
        2 * expected_estimators.getD i 0 -
          npInterp (1 - cred_int) cdf (npSort (bs_cols.map (fun c => c.getD i 0))))
  else .error .insufficientSamples

/-- The spec's per-record live-count contribution, as worded in the claim:
an unbounded-below record contributes where `L <= logl_max`, an
unbounded-above record where `L > logl_min`, and a bounded record where
`logl_min < L <= logl_max`.  (A record with both bounds NaN is rejected by
`get_nlive` before it returns; it contributes nowhere.) -/
def recordContribSpec (r : LoglMM α) (L : α) : α :=
  match r.logl_min, r.logl_max with
  | none, none => 0
  | none, some mx => if L ≤ mx then r.mult else 0
  | some mn, none => if mn < L then r.mult else 0
  | some mn, some mx => if mn < L ∧ L ≤ mx then r.mult else 0

/-- A deterministic stand-in for the `np.random.randint` oracle used by the
concrete witnesses: every draw returns the lower bound. -/
def wRandLo : RandInt := fun lo _ size => List.replicate size lo

/-- A concrete dynamic run with two thread slots (`nlive_1 = 1`) used by the
stratified-resampling witness. -/
noncomputable def wRun7 : NSRunDict ℝ :=
  { threads := [some [[0]], none],
    thread_logl_min_max := some [⟨some 0, none, 1⟩, ⟨none, some 1, 1⟩],
    nlive_array := none,
    settings := ⟨some 1, 1, 1⟩ }

/-- A concrete fixed run (no `thread_logl_min_max` key) used by the
missing-key witness. -/
noncomputable def wRun10 : NSRunDict ℝ :=
  { threads := [some [[0]]],
    thread_logl_min_max := none,
    nlive_array := none,
    settings := ⟨none, 1, 1⟩ }

/-- A concrete run used by the bootstrap-CI witness: one thread of two
samples, one unbounded-above interval record, and an explicit live-count
array for the observed-run evaluation. -/
noncomputable def wRun5 : NSRunDict ℝ :=
  { threads := [some [[0, 0, 0, 0], [1, 0, 0, 0]]],
    thread_logl_min_max := some [⟨some (-10), none, 2⟩],
    nlive_array := some [2, 2],
    settings := ⟨none, 1, 1⟩ }

/-- The resample of `wRun5` drawn through `wRandLo`. -/
noncomputable def wRun5res : NSRunDict ℝ :=
  { threads := [some [[0, 0, 0, 0], [1, 0, 0, 0]]],
    thread_logl_min_max := some [⟨some (-10), none, 2⟩],
    nlive_array := none,
    settings := ⟨none, 1, 1⟩ }

/-! ### Elementary lemmas about list indexing with `getD` -/

theorem getD_zipWith {β γ δ : Type} (f : β → γ → δ) (xs : List β) (ys : List γ)
    (i : ℕ) (d : δ) (dx : β) (dy : γ) (hx : i < xs.length) (hy : i < ys.length) :
    (List.zipWith f xs ys).getD i d = f (xs.getD i dx) (ys.getD i dy) := by
  induction xs generalizing ys i with
  | nil => simp at hx
  | cons x xs ih =>
    cases ys with
    | nil => simp at hy
    | cons y ys =>
      cases i with
      | zero => simp
      | succ i =>
        simp only [List.zipWith_cons_cons, List.getD_cons_succ]
        exact ih ys i (by simpa using hx) (by simpa using hy)

theorem getD_map {β γ : Type} (f : β → γ) (xs : List β) (i : ℕ) (d : γ) (dx : β)
    (hx : i < xs.length) :
    (xs.map f).getD i d = f (xs.getD i dx) := by
  induction xs generalizing i with
  | nil => simp at hx
  | cons x xs ih =>
    cases i with
    | zero => simp
    | succ i => simpa using ih i (by simpa using hx)

theorem getD_set_same {β : Type} (xs : List β) (j : ℕ) (v : β) (d : β)
    (hj : j < xs.length) : (xs.set j v).getD j d = v := by
  induction xs generalizing j with
  | nil => simp at hj
  | cons x xs ih =>
    cases j with
    | zero => simp
    | succ j => simpa using ih j (by simpa using hj)

theorem getD_set_ne {β : Type} (xs : List β) (i j : ℕ) (v : β) (d : β)
    (hij : i ≠ j) : (xs.set j v).getD i d = xs.getD i d := by
  induction xs generalizing i j with
  | nil => simp
  | cons x xs ih =>
    cases j with
    | zero =>
      cases i with
      | zero => exact absurd rfl hij
      | succ i => simp
    | succ j =>
      cases i with
      | zero => simp
      | succ i => simpa using ih i j (by omega)

theorem getD_append_left {β : Type} (xs ys : List β) (i : ℕ) (d : β)
    (hx : i < xs.length) : (xs ++ ys).getD i d = xs.getD i d := by
  induction xs generalizing i with
  | nil => simp at hx
  | cons x xs ih =>
    cases i with
    | zero => simp
    | succ i => simpa using ih i (by simpa using hx)

theorem getD_take {β : Type} (xs : List β) (k i : ℕ) (d : β) (hik : i < k) :
    (xs.take k).getD i d = xs.getD i d := by
  induction xs generalizing k i with
  | nil => simp
  | cons x xs ih =>
    cases k with
    | zero => omega
    | succ k =>
      cases i with
      | zero => simp
      | succ i => simpa using ih k i (by omega)

theorem getD_drop {β : Type} (xs : List β) (k i : ℕ) (d : β) :
    (xs.drop k).getD i d = xs.getD (k + i) d := by
  induction xs generalizing k i with
  | nil => simp
  | cons x xs ih =>
    cases k with
    | zero => simp
    | succ k =>
      simp only [List.drop_succ_cons, List.getD_cons_succ, Nat.succ_add]
      exact ih k i

theorem getD_mem {β : Type} (xs : List β) (i : ℕ) (d : β) (hi : i < xs.length) :
    xs.getD i d ∈ xs := by
  induction xs generalizing i with
  | nil => simp at hi
  | cons x xs ih =>
    cases i with
    | zero => simp
    | succ i => simpa using Or.inr (ih i (by simpa using hi))

theorem headD_eq_getD {β : Type} (xs : List β) (d : β) : xs.headD d = xs.getD 0 d := by
  cases xs <;> simp

/-! ### Lemmas about `cumsum` -/

@[simp]
theorem length_cumsumFrom (s : α) (xs : List α) : (cumsumFrom s xs).length = xs.length := by
  induction xs generalizing s with
  | nil => simp [cumsumFrom]
  | cons x xs ih => simp [cumsumFrom, ih]

@[simp]
theorem length_cumsum (xs : List α) : (cumsum xs).length = xs.length :=
  length_cumsumFrom 0 xs

theorem getD_cumsumFrom (s : α) (xs : List α) (i : ℕ) (d : α) (hi : i < xs.length) :
    (cumsumFrom s xs).getD i d = s + (xs.take (i + 1)).sum := by
  induction xs generalizing s i with
  | nil => simp at hi
  | cons x xs ih =>
    cases i with
    | zero => simp [cumsumFrom]
    | succ i =>
      simp only [cumsumFrom, List.getD_cons_succ, List.take_succ_cons, List.sum_cons]
      rw [ih (s + x) i (by simpa using hi)]
      ring

theorem getD_cumsum (xs : List α) (i : ℕ) (d : α) (hi : i < xs.length) :
    (cumsum xs).getD i d = (xs.take (i + 1)).sum := by
  rw [cumsum, getD_cumsumFrom 0 xs i d hi, zero_add]

/-! ### Positivity of a fold of `min` -/

theorem foldl_min_le (x : α) (xs : List α) : ∀ y ∈ x :: xs, xs.foldl min x ≤ y := by
  induction xs generalizing x with
  | nil => simp
  | cons z zs ih =>
    intro y hy
    have hbase : zs.foldl min (min x z) ≤ min x z :=
      ih (min x z) (min x z) (List.mem_cons_self _ _)
    simp only [List.foldl_cons]
    rcases List.mem_cons.mp hy with h | h
    · rw [h]; exact hbase.trans (min_le_left _ _)
    · rcases List.mem_cons.mp h with h2 | h2
      · rw [h2]; exact hbase.trans (min_le_right _ _)
      · exact ih (min x z) y (List.mem_cons_of_mem _ h2)

theorem foldl_min_pos (x : α) (xs : List α) (h : ∀ y ∈ x :: xs, 0 < y) :
    0 < xs.foldl min x := by
  induction xs generalizing x with
  | nil => simpa using h x (by simp)
  | cons z zs ih =>
    simp only [List.foldl_cons]
    refine ih (min x z) fun y hy => ?_
    rcases List.mem_cons.mp hy with hxy | hzy
    · subst hxy
      exact lt_min (h x (by simp)) (h z (by simp))
    · exact h y (by simp [hzy])

theorem sum_map_neg (xs : List α) (f : α → α) :
    (xs.map (fun x => -(f x))).sum = -((xs.map f).sum) := by
  induction xs with
  | nil => simp
  | cons x xs ih => simp [ih]; ring

theorem assertMinPos_ok_of_pos (arr : List α) (hne : arr ≠ [])
    (hpos : ∀ y ∈ arr, 0 < y) : assertMinPos arr = .ok () := by
  cases arr with
  | nil => exact absurd rfl hne
  | cons x xs =>
    simp only [assertMinPos, if_pos (foldl_min_pos x xs hpos)]

theorem assertMinPos_ok_pos (arr : List α) (h : assertMinPos arr = .ok ()) :
    ∀ y ∈ arr, 0 < y := by
  cases arr with
  | nil => simp [assertMinPos] at h
  | cons x xs =>
    intro y hy
    by_cases hc : 0 < xs.foldl min x
    · exact lt_of_lt_of_le hc (foldl_min_le x xs y hy)
    · simp [assertMinPos, if_neg hc] at h

/-! ### The dynamic branch of `get_nlive` as an interval-stabbing sum -/

theorem length_addWhere (arr logl : List α) (cond : α → Bool) (m : α) :
    (addWhere arr logl cond m).length = min arr.length logl.length := by
  simp [addWhere]

theorem addWhere_getD (arr logl : List α) (cond : α → Bool) (m : α) (i : ℕ)
    (h1 : i < arr.length) (h2 : i < logl.length) :
    (addWhere arr logl cond m).getD i 0 =
      if cond (logl.getD i 0) then arr.getD i 0 + m else arr.getD i 0 := by
  rw [addWhere, getD_zipWith _ arr logl i 0 0 0 h1 h2]

theorem foldl_addWhere_getD (rs : List (LoglMM α)) (cond : LoglMM α → α → Bool)
    (arr logl : List α) (i : ℕ) (hlen : arr.length = logl.length) (hi : i < logl.length) :
    (rs.foldl (fun a r => addWhere a logl (cond r) r.mult) arr).getD i 0
      = arr.getD i 0 + (rs.map (fun r => if cond r (logl.getD i 0) then r.mult else 0)).sum := by
  induction rs generalizing arr with
  | nil => simp
  | cons r rs ih =>
    simp only [List.foldl_cons, List.map_cons, List.sum_cons]
    rw [ih (addWhere arr logl (cond r) r.mult) (by rw [length_addWhere, hlen]; simp)]
    rw [addWhere_getD arr logl _ _ i (hlen ▸ hi) hi]
    by_cases hc : cond r (logl.getD i 0) = true
    · simp only [if_pos hc]
      ring
    · simp only [if_neg hc]
      ring

theorem sum_map_filter_eq (rs : List (LoglMM α)) (p : LoglMM α → Bool) (f : LoglMM α → α) :
    ((rs.filter p).map f).sum = (rs.map (fun r => if p r then f r else 0)).sum := by
  induction rs with
  | nil => simp
  | cons r rs ih =>
    by_cases hp : p r = true <;> simp [List.filter_cons, hp, ih]

theorem sum_map_add_map (l : List (LoglMM α)) (f g : LoglMM α → α) :
    (l.map f).sum + (l.map g).sum = (l.map (fun x => f x + g x)).sum := by
  induction l with
  | nil => simp
  | cons x xs ih =>
    simp only [List.map_cons, List.sum_cons, ← ih]
    ring

theorem nliveDyn_getD (lmm_ar : List (LoglMM α)) (logl : List α) (i : ℕ)
    (hi : i < logl.length) :
    (nliveDyn lmm_ar logl).getD i 0
      = (lmm_ar.map (fun r => recordContribSpec r (logl.getD i 0))).sum := by
  have hlen0 : (logl.map (fun _ => (0 : α))).length = logl.length := by simp
  have hlen1 : ∀ (rs : List (LoglMM α)) (cond : LoglMM α → α → Bool) (a : List α),
      a.length = logl.length →
      (rs.foldl (fun arr r => addWhere arr logl (cond r) r.mult) a).length = logl.length := by
    intro rs cond a ha
    induction rs generalizing a with
    | nil => simpa using ha
    | cons r rs ih =>
      simp only [List.foldl_cons]
      exact ih _ (by rw [length_addWhere, ha]; simp)
  rw [nliveDyn]
  rw [foldl_addWhere_getD _ (fun r L => nanGe r.logl_max L && nanLt r.logl_min L) _ logl i
    (hlen1 _ _ _ (hlen1 _ _ _ hlen0)) hi]
  rw [foldl_addWhere_getD _ (fun r L => nanLt r.logl_min L) _ logl i (hlen1 _ _ _ hlen0) hi]
  rw [foldl_addWhere_getD _ (fun r L => nanGe r.logl_max L) _ logl i hlen0 hi]
  rw [getD_map _ logl i 0 0 hi]
  rw [sum_map_filter_eq, sum_map_filter_eq, sum_map_filter_eq]
  rw [zero_add, add_assoc, sum_map_add_map, sum_map_add_map]
  refine congrArg List.sum (List.map_congr_left fun r _ => ?_)
  rcases hmin : r.logl_min with _ | mn <;> rcases hmax : r.logl_max with _ | mx <;>
    simp only [recordContribSpec, hmin, hmax, nanGe, nanLt, Option.isNone_none,
      Option.isNone_some, Option.isSome_none, Option.isSome_some, Bool.and_self,
      Bool.and_false, Bool.false_and, Bool.and_true, Bool.true_and, if_true, if_false,
      Bool.false_eq_true, decide_eq_true_eq]
  · simp
  · simp
  · simp
  · simp only [zero_add, Bool.and_eq_true, decide_eq_true_eq]
    exact if_congr and_comm rfl rfl

/-! ## Claim theorems -/

/-- C3: for every (nonempty) strictly positive live-count array, `get_logx`
in deterministic mode returns exactly the cumulative sum of the per-step
decrements `-1/nlive[i]`; the result is monotonically non-increasing; and
`nlive = [5,5,5,5,5]` gives exactly `[-0.2, -0.4, -0.6, -0.8, -1.0]`. -/
theorem claim_C3_get_logx_deterministic (nlive : List ℝ) (hne : nlive ≠ [])
    (hpos : ∀ x ∈ nlive, 0 < x) :
    get_logx nlive = .ok (cumsum (nlive.map (fun n => -(n⁻¹))))
    ∧ (∀ i, i < nlive.length →
        (get_logx_val nlive).getD i 0 = -(((nlive.take (i + 1)).map (fun n => n⁻¹)).sum))
    ∧ (∀ i j, i ≤ j → j < nlive.length →
        (get_logx_val nlive).getD j 0 ≤ (get_logx_val nlive).getD i 0)
    ∧ get_logx ([5, 5, 5, 5, 5] : List ℝ) =
        .ok [-(1/5 : ℝ), -(2/5), -(3/5), -(4/5), -1] := by
  have hfor : ∀ i, i < nlive.length →
      (get_logx_val nlive).getD i 0 = -(((nlive.take (i + 1)).map (fun n => n⁻¹)).sum) := by
    intro i hi
    rw [get_logx_val, getD_cumsum _ i 0 (by simpa using hi), ← List.map_take,
      ← sum_map_neg (nlive.take (i + 1)) (fun n => n⁻¹)]
  refine ⟨?_, hfor, ?_, ?_⟩
  · simp [get_logx, assertMinPos_ok_of_pos nlive hne hpos, Bind.bind, Except.bind,
      Functor.map, Except.map, Pure.pure, Except.pure, get_logx_val]
  · intro i j hij hj
    rw [hfor i (Nat.lt_of_le_of_lt hij hj), hfor j hj]
    have hsplit : nlive.take (j + 1) =
        nlive.take (i + 1) ++ (nlive.drop (i + 1)).take (j - i) := by
      rw [← List.take_add]
      congr 1
      omega
    rw [hsplit, List.map_append, List.sum_append, neg_add]
    have hnn : 0 ≤ (((nlive.drop (i + 1)).take (j - i)).map (fun n => n⁻¹)).sum := by
      refine List.sum_nonneg fun x hx => ?_
      rcases List.mem_map.mp hx with ⟨y, hy, rfl⟩
      have hmem : y ∈ nlive := List.drop_subset _ _ (List.take_subset _ _ hy)
      exact le_of_lt (inv_pos.mpr (hpos y hmem))
    linarith
  · norm_num [get_logx, assertMinPos, get_logx_val, cumsum, cumsumFrom,
      Bind.bind, Except.bind, Functor.map, Except.map, Pure.pure, Except.pure,
      List.foldl, min_def]

/-- Witness for C3 at the concrete live-count array `[5,5,5,5,5]`. -/
theorem claim_C3_witness :
    get_logx ([5, 5, 5, 5, 5] : List ℝ) = .ok (cumsum (([5, 5, 5, 5, 5] : List ℝ).map
      (fun n => -(n⁻¹)))) :=
  (claim_C3_get_logx_deterministic [5, 5, 5, 5, 5] (by simp)
    (by intro x hx; fin_cases hx <;> norm_num)).1

/-- C1: on a dynamic run (thread interval records present, no precomputed
live-count array), every live count `get_nlive` returns is the sum of
`multiplicity` over the interval records containing that sample's
log-likelihood, with the claim's NaN semantics (`recordContribSpec`); and
the records `[(NaN, -2, 3), (-2, NaN, 2)]` over log-likelihoods
`[-5, -3, -1]` yield live counts `[3, 3, 2]`. -/
theorem claim_C1_get_nlive_dynamic (run_dict : NSRunDict ℝ) (logl arr : List ℝ)
    (lmm_ar : List (LoglMM ℝ)) (i : ℕ)
    (hna : run_dict.nlive_array = none)
    (hlmm : run_dict.thread_logl_min_max = some lmm_ar)
    (hok : get_nlive run_dict logl = .ok arr)
    (hi : i < logl.length) :
    arr.getD i 0 = (lmm_ar.map (fun r => recordContribSpec r (logl.getD i 0))).sum
    ∧ get_nlive (α := ℝ) ⟨[], some [⟨none, some (-2), 3⟩, ⟨some (-2), none, 2⟩], none,
        ⟨some 1, 0, 0⟩⟩ [-5, -3, -1] = .ok [3, 3, 2] := by
  constructor
  · have hbuild : nliveBuild run_dict logl =
        (if (lmm_ar.filter (fun r => r.logl_min.isNone && r.logl_max.isNone)).length = 0 then
          .ok (nliveDyn lmm_ar logl) else .error .bothBoundsNaN) := by
      simp [nliveBuild, hna, hlmm]
    by_cases hf : (lmm_ar.filter (fun r => r.logl_min.isNone && r.logl_max.isNone)).length = 0
    · rw [if_pos hf] at hbuild
      cases ha : assertMinPos (nliveDyn lmm_ar logl) with
      | error e => simp [get_nlive, hbuild, ha, Bind.bind, Except.bind] at hok
      | ok u =>
        have harr : nliveDyn lmm_ar logl = arr := by
          simpa [get_nlive, hbuild, ha, Bind.bind, Except.bind, Functor.map, Except.map,
            Pure.pure, Except.pure] using hok
        rw [← harr, nliveDyn_getD lmm_ar logl i hi]
    · rw [if_neg hf] at hbuild
      simp [get_nlive, hbuild, Bind.bind, Except.bind] at hok
  · norm_num [get_nlive, nliveBuild, nliveDyn, addWhere, nanGe, nanLt, assertMinPos,
      Bind.bind, Except.bind, Functor.map, Except.map, Pure.pure, Except.pure,
      List.foldl, min_def]

/-- Witness for C1 at the concrete dynamic-run records of the claim. -/
theorem claim_C1_witness :
    (([3, 3, 2] : List ℝ).getD 0 0 =
      (([⟨none, some (-2), 3⟩, ⟨some (-2), none, 2⟩] : List (LoglMM ℝ)).map
        (fun r => recordContribSpec r (([-5, -3, -1] : List ℝ).getD 0 0))).sum)
    ∧ get_nlive (α := ℝ) ⟨[], some [⟨none, some (-2), 3⟩, ⟨some (-2), none, 2⟩], none,
        ⟨some 1, 0, 0⟩⟩ [-5, -3, -1] = .ok [3, 3, 2] :=
  claim_C1_get_nlive_dynamic
    ⟨[], some [⟨none, some (-2), 3⟩, ⟨some (-2), none, 2⟩], none, ⟨some 1, 0, 0⟩⟩
    [-5, -3, -1] [3, 3, 2] [⟨none, some (-2), 3⟩, ⟨some (-2), none, 2⟩] 0 rfl rfl
    (by norm_num [get_nlive, nliveBuild, nliveDyn, addWhere, nanGe, nanLt, assertMinPos,
      Bind.bind, Except.bind, Functor.map, Except.map, Pure.pure, Except.pure,
      List.foldl, min_def])
    (by norm_num)

/-! ### The `merge_lrxp` accumulation loop -/

theorem foldl_vstack_some (ts : List (Option (List (List α)))) (acc : List (List α)) :
    ts.foldl vstackStep (some acc) = some (acc ++ (ts.filterMap id).flatten) := by
  induction ts generalizing acc with
  | nil => simp
  | cons x ts ih =>
    cases x with
    | none => simp [vstackStep, ih, List.filterMap_cons]
    | some a =>
      simp only [List.foldl_cons, vstackStep, ih, List.filterMap_cons, id,
        List.flatten_cons]
      rw [List.append_assoc]

theorem foldl_vstack_all_none (ts : List (Option (List (List α))))
    (h : ∀ x ∈ ts, x = none) : ts.foldl vstackStep none = none := by
  induction ts with
  | nil => simp
  | cons x ts ih =>
    have hx : x = none := h x (by simp)
    rw [hx]
    simp only [List.foldl_cons, vstackStep]
    exact ih fun y hy => h y (by simp [hy])

theorem foldl_vstack_not_all_none (ts : List (Option (List (List α))))
    (h : ¬ ∀ x ∈ ts, x = none) :
    ts.foldl vstackStep none = some ((ts.filterMap id).flatten) := by
  induction ts with
  | nil => exact absurd (by simp) h
  | cons x ts ih =>
    cases x with
    | some a =>
      simp only [List.foldl_cons, vstackStep, List.filterMap_cons, id, List.flatten_cons]
      exact foldl_vstack_some ts a
    | none =>
      have hts : ¬ ∀ y ∈ ts, y = none := by
        intro hall
        exact h fun y hy => by
          rcases List.mem_cons.mp hy with h1 | h1
          · exact h1
          · exact hall y h1
      simp only [List.foldl_cons, vstackStep, List.filterMap_cons]
      exact ih hts

/-- C8: every live-count array `get_nlive` returns is strictly positive at
every index, and whenever the reconstructed (pre-assertion) array has a zero
or negative entry, `get_nlive` raises the data-integrity assertion carrying
the offending array instead of returning. -/
theorem claim_C8_get_nlive_positive_or_error (run_dict : NSRunDict ℝ) (logl arr : List ℝ) :
    (get_nlive run_dict logl = .ok arr → ∀ i, i < arr.length → 0 < arr.getD i 0)
    ∧ (nliveBuild run_dict logl = .ok arr → (∃ i, i < arr.length ∧ arr.getD i 0 ≤ 0) →
        get_nlive run_dict logl = .error (.assertionFail arr)) := by
  constructor
  · intro hok i hi
    cases hb : nliveBuild run_dict logl with
    | error e => simp [get_nlive, hb, Bind.bind, Except.bind] at hok
    | ok a =>
      cases ha : assertMinPos a with
      | error e => simp [get_nlive, hb, ha, Bind.bind, Except.bind] at hok
      | ok u =>
        have haa : a = arr := by
          simpa [get_nlive, hb, ha, Bind.bind, Except.bind, Functor.map, Except.map,
            Pure.pure, Except.pure] using hok
        subst haa
        cases u
        exact assertMinPos_ok_pos a ha _ (getD_mem a i 0 hi)
  · rintro hb ⟨i, hi, hnp⟩
    have hne : arr ≠ [] := by
      intro h
      rw [h] at hi
      simp at hi
    obtain ⟨x, xs, rfl⟩ := List.exists_cons_of_ne_nil hne
    have hmemle : xs.foldl min x ≤ (x :: xs).getD i 0 :=
      foldl_min_le x xs _ (getD_mem (x :: xs) i 0 hi)
    have hmin : ¬ 0 < xs.foldl min x := by
      intro hc
      linarith
    have ha : assertMinPos (x :: xs) = .error (.assertionFail (x :: xs)) := by
      simp [assertMinPos, if_neg hmin]
    simp [get_nlive, hb, ha, Bind.bind, Except.bind]

/-- C4: `merge_lrxp` returns the row-concatenation of exactly the
non-absent threads' tables sorted ascending by the first (logl) column,
returns the explicit empty marker `none` (not an error) exactly when every
thread is absent, and merging one non-absent thread with any number of
absent threads equals merging that thread alone. -/
theorem claim_C4_merge_lrxp (ts : List (Option (List (List ℝ)))) (t : List (List ℝ)) (k : ℕ) :
    (merge_lrxp ts = none ↔ ∀ x ∈ ts, x = none)
    ∧ (∀ m, merge_lrxp ts = some m →
        m = sortByLogl ((ts.filterMap id).flatten)
        ∧ m.Perm ((ts.filterMap id).flatten)
        ∧ List.Sorted (fun a b => a.headD 0 ≤ b.headD 0) m)
    ∧ merge_lrxp (some t :: List.replicate k none) = merge_lrxp [some t] := by
  haveI htot : IsTotal (List ℝ) (fun a b => a.headD 0 ≤ b.headD 0) :=
    ⟨fun a b => le_total _ _⟩
  haveI htr : IsTrans (List ℝ) (fun a b => a.headD 0 ≤ b.headD 0) :=
    ⟨fun a b c hab hbc => le_trans hab hbc⟩
  refine ⟨⟨fun hm => ?_, fun hall => ?_⟩, fun m hm => ?_, ?_⟩
  · by_contra hnot
    rw [merge_lrxp, foldl_vstack_not_all_none ts hnot] at hm
    simp at hm
  · rw [merge_lrxp, foldl_vstack_all_none ts hall]
  · by_cases hall : ∀ x ∈ ts, x = none
    · rw [merge_lrxp, foldl_vstack_all_none ts hall] at hm
      simp at hm
    · rw [merge_lrxp, foldl_vstack_not_all_none ts hall] at hm
      have hms : m = sortByLogl ((ts.filterMap id).flatten) := by
        simpa using hm.symm
      refine ⟨hms, ?_, ?_⟩
      · rw [hms, sortByLogl]
        exact List.perm_insertionSort _ _
      · rw [hms, sortByLogl]
        exact List.sorted_insertionSort _ _
  · rw [merge_lrxp, List.foldl_cons]
    have hstep : vstackStep (none : Option (List (List ℝ))) (some t) = some t := rfl
    have hrep : ∀ j, (List.replicate j (none : Option (List (List ℝ)))).foldl vstackStep
        (some t) = some t := by
      intro j
      induction j with
      | zero => rfl
      | succ j ih => simpa [List.replicate_succ, vstackStep] using ih
    rw [hstep, hrep k]
    rfl

/-! ### The index structure of `get_logw_val` -/

theorem get_logw_val_length (logl gx : List ℝ) (h : gx.length = logl.length)
    (hN : 2 ≤ logl.length) : (get_logw_val logl gx).length = logl.length := by
  simp only [get_logw_val]
  simp only [List.length_zipWith, List.length_set, List.length_map, List.length_append,
    List.length_take, List.length_drop, List.length_cons, List.length_singleton, h]
  omega

theorem get_logw_val_getD_mid (logl gx : List ℝ) (h : gx.length = logl.length)
    (hN : 2 ≤ logl.length) :
    ∀ i, 1 ≤ i → i ≤ logl.length - 2 →
    (get_logw_val logl gx).getD i 0 =
      log_subtract ((0 :: gx).getD i 0) ((0 :: gx).getD (i + 2) 0) - Real.log 2
        + logl.getD i 0 := by
  intro i h1 h2
  simp only [get_logw_val]
  set Z := List.zipWith log_subtract ((0 :: gx).take (logl.length - 1)) ((0 :: gx).drop 2)
    with hZ
  set A := Z ++ [(0 : ℝ)] with hA
  set B := A.map (fun w => w - Real.log 2) with hB
  set v0 := logsumexp [B.headD 0,
    Real.log 0.5 + log_subtract ((0 :: gx).headD 0) ((0 :: gx).getD 1 0)] with hv0
  set C := B.set 0 v0 with hC
  set D := C.set (logl.length - 1) (C.getD (logl.length - 2) 0) with hD
  have hZlen : Z.length = logl.length - 1 := by
    rw [hZ]
    simp only [List.length_zipWith, List.length_take, List.length_drop, List.length_cons, h]
    omega
  have hAlen : A.length = logl.length := by
    rw [hA]
    simp only [List.length_append, List.length_singleton, hZlen]
    omega
  have hBlen : B.length = logl.length := by
    rw [hB, List.length_map, hAlen]
  have hClen : C.length = logl.length := by
    rw [hC, List.length_set, hBlen]
  have hDlen : D.length = logl.length := by
    rw [hD, List.length_set, hClen]
  rw [getD_zipWith (fun w L => w + L) D logl i 0 0 0 (by omega) (by omega)]
  rw [hD, getD_set_ne C i (logl.length - 1) _ 0 (by omega)]
  rw [hC, getD_set_ne B i 0 _ 0 (by omega)]
  rw [hB, getD_map _ A i 0 0 (by rw [hAlen]; omega)]
  rw [hA, getD_append_left Z [0] i 0 (by rw [hZlen]; omega)]
  rw [hZ, getD_zipWith log_subtract _ _ i 0 0 0
    (by simp only [List.length_take, List.length_cons, h]; omega)
    (by simp only [List.length_drop, List.length_cons, h]; omega)]
  rw [getD_take _ _ i 0 (by omega), getD_drop, Nat.add_comm 2 i]

theorem get_logw_val_getD_zero (logl gx : List ℝ) (h : gx.length = logl.length)
    (hN : 2 ≤ logl.length) :
    (get_logw_val logl gx).getD 0 0 =
      logsumexp [log_subtract ((0 :: gx).getD 0 0) ((0 :: gx).getD 2 0) - Real.log 2,
        Real.log 0.5 + log_subtract ((0 :: gx).getD 0 0) ((0 :: gx).getD 1 0)]
        + logl.getD 0 0 := by
  simp only [get_logw_val]
  set Z := List.zipWith log_subtract ((0 :: gx).take (logl.length - 1)) ((0 :: gx).drop 2)
    with hZ
  set A := Z ++ [(0 : ℝ)] with hA
  set B := A.map (fun w => w - Real.log 2) with hB
  set v0 := logsumexp [B.headD 0,
    Real.log 0.5 + log_subtract ((0 :: gx).headD 0) ((0 :: gx).getD 1 0)] with hv0
  set C := B.set 0 v0 with hC
  set D := C.set (logl.length - 1) (C.getD (logl.length - 2) 0) with hD
  have hZlen : Z.length = logl.length - 1 := by
    rw [hZ]
    simp only [List.length_zipWith, List.length_take, List.length_drop, List.length_cons, h]
    omega
  have hAlen : A.length = logl.length := by
    rw [hA]
    simp only [List.length_append, List.length_singleton, hZlen]
    omega
  have hBlen : B.length = logl.length := by
    rw [hB, List.length_map, hAlen]
  have hClen : C.length = logl.length := by
    rw [hC, List.length_set, hBlen]
  have hDlen : D.length = logl.length := by
    rw [hD, List.length_set, hClen]
  rw [getD_zipWith (fun w L => w + L) D logl 0 0 0 0 (by omega) (by omega)]
  rw [hD, getD_set_ne C 0 (logl.length - 1) _ 0 (by omega)]
  rw [hC, getD_set_same B 0 v0 0 (by rw [hBlen]; omega)]
  rw [hv0, headD_eq_getD B 0]
  rw [hB, getD_map _ A 0 0 0 (by rw [hAlen]; omega)]
  rw [hA, getD_append_left Z [0] 0 0 (by rw [hZlen]; omega)]
  rw [hZ, getD_zipWith log_subtract _ _ 0 0 0 0
    (by simp only [List.length_take, List.length_cons, h]; omega)
    (by simp only [List.length_drop, List.length_cons, h]; omega)]
  rw [getD_take _ _ 0 0 (by omega), getD_drop, headD_eq_getD (0 :: gx) 0]

theorem get_logw_val_getD_last (logl gx : List ℝ) (h : gx.length = logl.length)
    (hN : 2 ≤ logl.length) :
    (get_logw_val logl gx).getD (logl.length - 1) 0 =
      ((get_logw_val logl gx).getD (logl.length - 2) 0 - logl.getD (logl.length - 2) 0)
        + logl.getD (logl.length - 1) 0 := by
  simp only [get_logw_val]
  set Z := List.zipWith log_subtract ((0 :: gx).take (logl.length - 1)) ((0 :: gx).drop 2)
    with hZ
  set A := Z ++ [(0 : ℝ)] with hA
  set B := A.map (fun w => w - Real.log 2) with hB
  set v0 := logsumexp [B.headD 0,
    Real.log 0.5 + log_subtract ((0 :: gx).headD 0) ((0 :: gx).getD 1 0)] with hv0
  set C := B.set 0 v0 with hC
  set D := C.set (logl.length - 1) (C.getD (logl.length - 2) 0) with hD
  have hZlen : Z.length = logl.length - 1 := by
    rw [hZ]
    simp only [List.length_zipWith, List.length_take, List.length_drop, List.length_cons, h]
    omega
  have hAlen : A.length = logl.length := by
    rw [hA]
    simp only [List.length_append, List.length_singleton, hZlen]
    omega
  have hBlen : B.length = logl.length := by
    rw [hB, List.length_map, hAlen]
  have hClen : C.length = logl.length := by
    rw [hC, List.length_set, hBlen]
  have hDlen : D.length = logl.length := by
    rw [hD, List.length_set, hClen]
  rw [getD_zipWith (fun w L => w + L) D logl (logl.length - 1) 0 0 0 (by omega) (by omega)]
  rw [getD_zipWith (fun w L => w + L) D logl (logl.length - 2) 0 0 0 (by omega) (by omega)]
  rw [hD, getD_set_same C (logl.length - 1) _ 0 (by rw [hClen]; omega)]
  rw [getD_set_ne C (logl.length - 2) (logl.length - 1) _ 0 (by omega)]
  ring

/-! ### Success and error-provenance lemmas for the `Except` pipeline -/

theorem mapExcept_ok {ε β γ : Type} (f : β → Except ε γ) (g : β → γ) (l : List β)
    (h : ∀ x ∈ l, f x = .ok (g x)) : mapExcept f l = .ok (l.map g) := by
  induction l with
  | nil => rfl
  | cons x xs ih =>
    simp only [mapExcept, h x (by simp), Bind.bind, Except.bind,
      ih fun y hy => h y (by simp [hy]), List.map_cons, Pure.pure, Except.pure]

theorem bind_ne_error {ε β γ : Type} (err : ε) (m : Except ε β) (f : β → Except ε γ)
    (hm : m ≠ .error err) (hf : ∀ a, f a ≠ .error err) :
    (m >>= f) ≠ .error err := by
  cases m with
  | error e => simpa [Bind.bind, Except.bind] using hm
  | ok a => simpa [Bind.bind, Except.bind] using hf a

theorem mapExcept_ne_error {ε β γ : Type} (err : ε) (f : β → Except ε γ) (l : List β)
    (h : ∀ x ∈ l, f x ≠ .error err) : mapExcept f l ≠ .error err := by
  induction l with
  | nil => simp [mapExcept]
  | cons x xs ih =>
    refine bind_ne_error err (f x) _ (h x (by simp)) fun a => ?_
    refine bind_ne_error err _ _ (ih fun y hy => h y (by simp [hy])) fun b => ?_
    simp [Pure.pure, Except.pure]

theorem assertMinPos_ne_insuff (arr : List ℝ) :
    assertMinPos arr ≠ .error .insufficientSamples := by
  cases arr with
  | nil => simp [assertMinPos]
  | cons x xs =>
    by_cases hc : 0 < xs.foldl min x <;> simp [assertMinPos, hc]

theorem get_logx_ne_insuff (nlive : List ℝ) :
    get_logx nlive ≠ .error .insufficientSamples := by
  refine bind_ne_error _ _ _ (assertMinPos_ne_insuff nlive) fun a => ?_
  simp [Pure.pure, Except.pure]

theorem setNegIdx_ne_insuff (arr : List ℝ) (i : ℕ) (v : ℝ) :
    setNegIdx arr i v ≠ .error .insufficientSamples := by
  by_cases hc : 1 ≤ i ∧ i ≤ arr.length <;> simp [setNegIdx, hc]

theorem rampLoop_ne_insuff (l : List ℕ) (arr : List ℝ) :
    rampLoop l arr ≠ .error .insufficientSamples := by
  induction l generalizing arr with
  | nil => simp [rampLoop]
  | cons i rest ih =>
    simp only [rampLoop]
    exact bind_ne_error _ _ _ (setNegIdx_ne_insuff arr i (i : ℝ)) fun a => ih a

theorem nliveBuild_ne_insuff (run_dict : NSRunDict ℝ) (logl : List ℝ) :
    nliveBuild run_dict logl ≠ .error .insufficientSamples := by
  rw [nliveBuild]
  cases run_dict.nlive_array with
  | some arr => simp
  | none =>
    cases run_dict.thread_logl_min_max with
    | some lmm_ar =>
      by_cases hf : (lmm_ar.filter
          (fun r => r.logl_min.isNone && r.logl_max.isNone)).length = 0 <;> simp [hf]
    | none =>
      cases run_dict.settings.dynamic_goal with
      | some g => simp
      | none => exact rampLoop_ne_insuff _ _

theorem get_nlive_ne_insuff (run_dict : NSRunDict ℝ) (logl : List ℝ) :
    get_nlive run_dict logl ≠ .error .insufficientSamples := by
  refine bind_ne_error _ _ _ (nliveBuild_ne_insuff run_dict logl) fun arr => ?_
  refine bind_ne_error _ _ _ (assertMinPos_ne_insuff arr) fun u => ?_
  simp [Pure.pure, Except.pure]

theorem get_logw_ne_insuff (logl nlive : List ℝ) :
    get_logw logl nlive ≠ .error .insufficientSamples := by
  refine bind_ne_error _ _ _ (get_logx_ne_insuff nlive) fun gx => ?_
  by_cases hc : gx.length = logl.length ∧ 2 ≤ logl.length <;>
    simp [hc, Pure.pure, Except.pure]

theorem run_estimators_ne_insuff (ns_run : NSRunDict ℝ) (est : List Estimator) :
    run_estimators ns_run est ≠ .error .insufficientSamples := by
  rw [run_estimators]
  cases hm : merge_lrxp ns_run.threads with
  | none => simp [Bind.bind, Except.bind]
  | some m =>
    refine bind_ne_error _ (Except.ok m) _ (by simp) fun lrxp => ?_
    refine bind_ne_error _ _ _ (get_nlive_ne_insuff ns_run (col 0 lrxp)) fun nlive => ?_
    refine bind_ne_error _ _ _ (get_logw_ne_insuff (col 0 lrxp) nlive) fun logw => ?_
    simp [Pure.pure, Except.pure]

theorem bootstrap_resample_run_ne_insuff (randint : RandInt) (ns_run : NSRunDict ℝ)
    (sep : Bool) :
    bootstrap_resample_run randint ns_run sep ≠ .error .insufficientSamples := by
  rw [bootstrap_resample_run]
  refine bind_ne_error _ _ _ (mapExcept_ne_error _ _ _ fun i _ => ?_) fun threads => ?_
  · by_cases hc : i < ns_run.threads.length <;> simp [hc]
  · cases hk : ns_run.thread_logl_min_max with
    | none => simp [Bind.bind, Except.bind]
    | some lmm =>
      refine bind_ne_error _ (Except.ok lmm) _ (by simp) fun lmm1 => ?_
      refine bind_ne_error _ _ _ (mapExcept_ne_error _ _ _ fun i _ => ?_) fun lmm2 => ?_
      · by_cases hc : i < lmm1.length <;> simp [hc]
      · simp [Pure.pure, Except.pure]

/-- C2: for every log-likelihood vector of length at least two and strictly
positive live counts, `get_logw` assigns sample `i ∈ [1, N-2]` the volume
weight `log_subtract(X[i], X[i+2]) - log 2` over the augmented sequence
`X = 0 :: logx`, replaces the first sample's volume weight by the
`logsumexp` of that trapezium term with `log 0.5 + log_subtract(X[0], X[1])`,
gives the last sample the second-to-last volume weight, and adds `logl`
throughout. -/
theorem claim_C2_get_logw_structure (logl nlive : List ℝ)
    (hlen : nlive.length = logl.length) (hN : 2 ≤ logl.length)
    (hpos : ∀ x ∈ nlive, 0 < x) :
    ∃ w, get_logw logl nlive = .ok w ∧ w.length = logl.length
      ∧ w.getD 0 0 = logsumexp [log_subtract ((0 :: get_logx_val nlive).getD 0 0)
            ((0 :: get_logx_val nlive).getD 2 0) - Real.log 2,
          Real.log 0.5 + log_subtract ((0 :: get_logx_val nlive).getD 0 0)
            ((0 :: get_logx_val nlive).getD 1 0)] + logl.getD 0 0
      ∧ (∀ i, 1 ≤ i → i ≤ logl.length - 2 →
          w.getD i 0 = log_subtract ((0 :: get_logx_val nlive).getD i 0)
            ((0 :: get_logx_val nlive).getD (i + 2) 0) - Real.log 2 + logl.getD i 0)
      ∧ w.getD (logl.length - 1) 0 =
          (w.getD (logl.length - 2) 0 - logl.getD (logl.length - 2) 0)
            + logl.getD (logl.length - 1) 0 := by
  have hne : nlive ≠ [] := by
    intro h
    rw [h] at hlen
    simp at hlen
    omega
  have hgx : get_logx nlive = .ok (get_logx_val nlive) := by
    simp [get_logx, assertMinPos_ok_of_pos nlive hne hpos, Bind.bind, Except.bind,
      Pure.pure, Except.pure]
  have hlgx : (get_logx_val nlive).length = logl.length := by
    simp [get_logx_val, hlen]
  have hw : get_logw logl nlive = .ok (get_logw_val logl (get_logx_val nlive)) := by
    simp [get_logw, hgx, Bind.bind, Except.bind, Pure.pure, Except.pure, hlgx, hN]
  refine ⟨get_logw_val logl (get_logx_val nlive), hw,
    get_logw_val_length logl _ hlgx hN,
    get_logw_val_getD_zero logl _ hlgx hN,
    get_logw_val_getD_mid logl _ hlgx hN,
    get_logw_val_getD_last logl _ hlgx hN⟩

/-- Witness for C2 at `logl = [0, 1]`, `nlive = [2, 2]`. -/
theorem claim_C2_witness :
    ∃ w, get_logw [0, 1] [2, 2] = .ok w ∧ w.length = ([0, 1] : List ℝ).length
      ∧ w.getD 0 0 = logsumexp [log_subtract ((0 :: get_logx_val [2, 2]).getD 0 0)
            ((0 :: get_logx_val [2, 2]).getD 2 0) - Real.log 2,
          Real.log 0.5 + log_subtract ((0 :: get_logx_val [2, 2]).getD 0 0)
            ((0 :: get_logx_val [2, 2]).getD 1 0)] + ([0, 1] : List ℝ).getD 0 0
      ∧ (∀ i, 1 ≤ i → i ≤ ([0, 1] : List ℝ).length - 2 →
          w.getD i 0 = log_subtract ((0 :: get_logx_val [2, 2]).getD i 0)
            ((0 :: get_logx_val [2, 2]).getD (i + 2) 0) - Real.log 2
              + ([0, 1] : List ℝ).getD i 0)
      ∧ w.getD (([0, 1] : List ℝ).length - 1) 0 =
          (w.getD (([0, 1] : List ℝ).length - 2) 0
              - ([0, 1] : List ℝ).getD (([0, 1] : List ℝ).length - 2) 0)
            + ([0, 1] : List ℝ).getD (([0, 1] : List ℝ).length - 1) 0 :=
  claim_C2_get_logw_structure [0, 1] [2, 2] rfl (by norm_num)
    (by intro x hx; fin_cases hx <;> norm_num)

/-- C6: `run_ci_bootstrap` raises the insufficient-sample error — before any
resampling, for every run, estimator list and random stream — exactly when
`min(cred_int, 1 - cred_int) * n_simulate <= 1`; in particular
`n_simulate = 1` with `cred_int = 0.95` raises it. -/
theorem claim_C6_ci_insufficient_samples (randint : ℕ → RandInt) (ns_run : NSRunDict ℝ)
    (est : List Estimator) (n : ℕ) (c : ℝ) :
    (run_ci_bootstrap randint ns_run est n c = .error .insufficientSamples
      ↔ min c (1 - c) * (n : ℝ) ≤ 1)
    ∧ run_ci_bootstrap randint ns_run est 1 (0.95 : ℝ) = .error .insufficientSamples := by
  constructor
  · constructor
    · intro herr
      by_contra hnot
      have hgt : min c (1 - c) * (n : ℝ) > 1 := lt_of_not_ge hnot
      rw [run_ci_bootstrap, if_pos hgt] at herr
      refine absurd herr ?_
      refine bind_ne_error _ _ _ (mapExcept_ne_error _ _ _ fun i _ => ?_) fun bs_cols => ?_
      · exact bind_ne_error _ _ _ (bootstrap_resample_run_ne_insuff (randint i) ns_run true)
          fun rt => run_estimators_ne_insuff rt est
      · refine bind_ne_error _ _ _ (run_estimators_ne_insuff ns_run est) fun expected => ?_
        simp [Pure.pure, Except.pure]
    · intro hle
      rw [run_ci_bootstrap, if_neg (not_lt.mpr hle)]
  · rw [run_ci_bootstrap, if_neg ?_]
    push_cast
    norm_num [min_def]

/-- C7: on a dynamic run with stratified resampling, the index vector is the
concatenation of `n_init` draws from the first `n_init` thread slots with
`n_threads - n_init` draws from the remaining slots, and the same index
vector is applied to both the thread list and the interval records. -/
theorem claim_C7_stratified_resample (randint : RandInt) (ns_run : NSRunDict ℝ)
    (lmm : List (LoglMM ℝ))
    (hdyn : ns_run.settings.dynamic_goal.isSome = true)
    (hlmm : ns_run.thread_logl_min_max = some lmm)
    (hlen : lmm.length = ns_run.threads.length)
    (hb1 : ∀ j ∈ randint 0 ns_run.settings.nlive_1 ns_run.settings.nlive_1,
        j < ns_run.threads.length)
    (hb2 : ∀ j ∈ randint ns_run.settings.nlive_1 ns_run.threads.length
        (ns_run.threads.length - ns_run.settings.nlive_1), j < ns_run.threads.length) :
    bootstrap_resample_run randint ns_run true = .ok
      { threads := (randint 0 ns_run.settings.nlive_1 ns_run.settings.nlive_1 ++
            randint ns_run.settings.nlive_1 ns_run.threads.length
              (ns_run.threads.length - ns_run.settings.nlive_1)).map
          (fun i => ns_run.threads.getD i none),
        thread_logl_min_max := some ((randint 0 ns_run.settings.nlive_1
            ns_run.settings.nlive_1 ++
            randint ns_run.settings.nlive_1 ns_run.threads.length
              (ns_run.threads.length - ns_run.settings.nlive_1)).map
          (fun i => lmm.getD i ⟨none, none, 0⟩)),
        nlive_array := none,
        settings := ns_run.settings } := by
  have hbounds : ∀ j ∈ randint 0 ns_run.settings.nlive_1 ns_run.settings.nlive_1 ++
      randint ns_run.settings.nlive_1 ns_run.threads.length
        (ns_run.threads.length - ns_run.settings.nlive_1), j < ns_run.threads.length := by
    intro j hj
    rcases List.mem_append.mp hj with h | h
    · exact hb1 j h
    · exact hb2 j h
  rw [bootstrap_resample_run]
  rw [if_pos (by rw [hdyn]; rfl)]
  rw [mapExcept_ok _ (fun i => ns_run.threads.getD i none) _
    (fun i hi => if_pos (hbounds i hi))]
  simp only [Bind.bind, Except.bind, hlmm]
  rw [mapExcept_ok _ (fun i => lmm.getD i ⟨none, none, 0⟩) _
    (fun i hi => if_pos (hlen ▸ hbounds i hi))]
  rfl

/-- C10: a run whose dictionary lacks `thread_logl_min_max` (as fixed
live-point-count runs do) makes `bootstrap_resample_run` raise `KeyError`
even on the non-stratified branch, so `run_std_bootstrap` fails with
`KeyError` and `run_ci_bootstrap` fails with some error rather than
producing bootstrap uncertainty estimates. -/
theorem claim_C10_missing_records_key (randint : ℕ → RandInt) (ns_run : NSRunDict ℝ)
    (est : List Estimator) (n : ℕ) (c : ℝ)
    (hno : ns_run.thread_logl_min_max = none)
    (hfix : ns_run.settings.dynamic_goal = none)
    (hb : ∀ i, ∀ j ∈ randint i 0 ns_run.threads.length ns_run.threads.length,
        j < ns_run.threads.length)
    (hn : 1 ≤ n) :
    bootstrap_resample_run (randint 0) ns_run = .error .keyError
    ∧ run_std_bootstrap randint ns_run est n = .error .keyError
    ∧ ∃ e, run_ci_bootstrap randint ns_run est n c = .error e := by
  have hkey : ∀ i, bootstrap_resample_run (randint i) ns_run = .error .keyError := by
    intro i
    rw [bootstrap_resample_run]
    rw [if_neg (by rw [hfix]; simp)]
    rw [mapExcept_ok _ (fun j => ns_run.threads.getD j none) _
      (fun j hj => if_pos (hb i j hj))]
    simp [Bind.bind, Except.bind, hno]
  have hbody : ∀ i, (bootstrap_resample_run (randint i) ns_run >>=
      fun rt => run_estimators rt est) = .error .keyError := by
    intro i
    rw [hkey i]
    rfl
  have hloop : mapExcept (fun i => bootstrap_resample_run (randint i) ns_run >>=
      fun rt => run_estimators rt est) (List.range n) = .error .keyError := by
    obtain ⟨m, rfl⟩ : ∃ m, n = m + 1 := ⟨n - 1, by omega⟩
    rw [List.range_succ_eq_map]
    simp only [mapExcept]
    rw [hkey 0]
    simp [Bind.bind, Except.bind]
  refine ⟨hkey 0, ?_, ?_⟩
  · rw [run_std_bootstrap]
    have : (mapExcept (fun i => do
        let ns_run_temp ← bootstrap_resample_run (randint i) ns_run
        run_estimators ns_run_temp est) (List.range n)) = .error .keyError := hloop
    rw [this]
    rfl
  · by_cases hgt : min c (1 - c) * (n : ℝ) > 1
    · refine ⟨.keyError, ?_⟩
      rw [run_ci_bootstrap, if_pos hgt]
      have : (mapExcept (fun i => do
          let ns_run_temp ← bootstrap_resample_run (randint i) ns_run
          run_estimators ns_run_temp est) (List.range n)) = .error .keyError := hloop
      rw [this]
      rfl
    · refine ⟨.insufficientSamples, ?_⟩
      rw [run_ci_bootstrap, if_neg hgt]

/-- Witness for C7 at a concrete two-slot dynamic run and a lower-bound
drawing oracle. -/
theorem claim_C7_witness :
    bootstrap_resample_run wRandLo wRun7 true = .ok
      { threads := (wRandLo 0 wRun7.settings.nlive_1 wRun7.settings.nlive_1 ++
            wRandLo wRun7.settings.nlive_1 wRun7.threads.length
              (wRun7.threads.length - wRun7.settings.nlive_1)).map
          (fun i => wRun7.threads.getD i none),
        thread_logl_min_max := some ((wRandLo 0 wRun7.settings.nlive_1
            wRun7.settings.nlive_1 ++
            wRandLo wRun7.settings.nlive_1 wRun7.threads.length
              (wRun7.threads.length - wRun7.settings.nlive_1)).map
          (fun i => ([⟨some 0, none, 1⟩, ⟨none, some 1, 1⟩] : List (LoglMM ℝ)).getD i
            ⟨none, none, 0⟩)),
        nlive_array := none,
        settings := wRun7.settings } :=
  claim_C7_stratified_resample wRandLo wRun7 [⟨some 0, none, 1⟩, ⟨none, some 1, 1⟩]
    rfl rfl rfl
    (by intro j hj; simp [wRandLo, wRun7, List.mem_replicate] at hj; simp [wRun7, hj])
    (by intro j hj; simp [wRandLo, wRun7, List.mem_replicate] at hj; simp [wRun7, hj])

/-- Witness for C10 at a concrete fixed run without the records key. -/
theorem claim_C10_witness :
    bootstrap_resample_run ((fun _ => wRandLo : ℕ → RandInt) 0) wRun10 = .error .keyError
    ∧ run_std_bootstrap (fun _ => wRandLo) wRun10 [] 1 = .error .keyError
    ∧ ∃ e, run_ci_bootstrap (fun _ => wRandLo) wRun10 [] 1 (1 / 2) = .error e :=
  claim_C10_missing_records_key (fun _ => wRandLo) wRun10 [] 1 (1 / 2) rfl rfl
    (by
      intro i j hj
      simp [wRandLo, wRun10, List.mem_replicate] at hj
      simp [wRun10, hj])
    (by omega)

/-- C5: when the precondition holds and every bootstrap iteration succeeds,
`run_ci_bootstrap` returns, for each estimator `j`, exactly
`2 * T_j(observed, deterministic weights)` minus the linear interpolation of
`1 - cred_int` on the grid `(k + 0.5)/n_simulate` against that estimator's
ascending-sorted bootstrap replicate values. -/
theorem claim_C5_ci_formula (randint : ℕ → RandInt) (ns_run : NSRunDict ℝ)
    (est : List Estimator) (n : ℕ) (c : ℝ) (T : List ℝ) (v : ℕ → List ℝ)
    (hgt : 1 < min c (1 - c) * (n : ℝ))
    (hT : run_estimators ns_run est = .ok T)
    (hv : ∀ i, i < n → (bootstrap_resample_run (randint i) ns_run >>=
        fun rt => run_estimators rt est) = .ok (v i)) :
    run_ci_bootstrap randint ns_run est n c = .ok
      ((List.range est.length).map (fun j =>
        2 * T.getD j 0 - npInterp (1 - c)
          ((List.range n).map (fun k => ((k : ℝ) + 0.5) / (n : ℝ)))
          (npSort ((List.range n).map (fun i => (v i).getD j 0))))) := by
  rw [run_ci_bootstrap, if_pos hgt]
  rw [mapExcept_ok _ v _ (fun i hi => hv i (List.mem_range.mp hi))]
  simp only [Bind.bind, Except.bind, hT, Pure.pure, Except.pure]
  simp only [List.map_map]
  refine congrArg Except.ok (List.map_congr_left fun j _ => ?_)
  rfl

/-- Evaluation: resampling `wRun5` through `wRandLo` gives `wRun5res`. -/
theorem wRun5_resample : bootstrap_resample_run wRandLo wRun5 = .ok wRun5res := by
  norm_num [bootstrap_resample_run, wRandLo, wRun5, wRun5res, mapExcept,
    Bind.bind, Except.bind, Pure.pure, Except.pure, List.replicate]

/-- Evaluation: the empty estimator list on the resampled concrete run. -/
theorem wRun5res_estimators : run_estimators wRun5res [] = .ok [] := by
  norm_num [run_estimators, wRun5res, merge_lrxp, vstackStep, sortByLogl,
    List.insertionSort, List.orderedInsert, col, get_nlive, nliveBuild, nliveDyn,
    addWhere, nanGe, nanLt, assertMinPos, get_logx, get_logx_val, cumsum, cumsumFrom,
    get_logw, get_estimators, Bind.bind, Except.bind, Pure.pure, Except.pure,
    List.foldl, min_def]

/-- Evaluation: the empty estimator list on the observed concrete run. -/
theorem wRun5_estimators : run_estimators wRun5 [] = .ok [] := by
  norm_num [run_estimators, wRun5, merge_lrxp, vstackStep, sortByLogl,
    List.insertionSort, List.orderedInsert, col, get_nlive, nliveBuild,
    assertMinPos, get_logx, get_logx_val, cumsum, cumsumFrom,
    get_logw, get_estimators, Bind.bind, Except.bind, Pure.pure, Except.pure,
    List.foldl, min_def]

/-- Witness for C5: a successful bootstrap CI computation on the concrete
run `wRun5` with three iterations, credibility one half and no estimators. -/
theorem claim_C5_witness :
    run_ci_bootstrap (fun _ => wRandLo) wRun5 [] 3 (1 / 2) = .ok
      ((List.range ([] : List Estimator).length).map (fun j =>
        2 * ([] : List ℝ).getD j 0 - npInterp (1 - 1 / 2)
          ((List.range 3).map (fun k => ((k : ℝ) + 0.5) / ((3 : ℕ) : ℝ)))
          (npSort ((List.range 3).map (fun i => ((fun _ => ([] : List ℝ)) i).getD j 0))))) :=
  claim_C5_ci_formula (fun _ => wRandLo) wRun5 [] 3 (1 / 2) [] (fun _ => [])
    (by norm_num [min_def])
    wRun5_estimators
    (fun i _ => by
      show (bootstrap_resample_run wRandLo wRun5 >>=
        fun rt => run_estimators rt []) = .ok []
      rw [wRun5_resample]
      simpa [Bind.bind, Except.bind] using wRun5res_estimators)

/-- C9 (counterexample to the claim as stated): `log_subtract` called with
`log_a < log_b` — here `log_a = 0`, `log_b = 1` — does not raise: its
assertion is commented out in the source and it returns the computed value,
whose inner quantity `1 - exp(log_b - log_a)` is negative (so the float code
takes `log` of a negative number, i.e. NaN, rather than raising). -/
theorem claim_C9_counterexample :
    log_subtract 0 1 = Real.log (1 - Real.exp 1) ∧ 1 - Real.exp 1 < 0 := by
  constructor
  · simp [log_subtract]
  · have h := Real.add_one_le_exp 1
    linarith

/-- C9 (amended): `log_subtract` performs no precondition check: for every
input, also when `log_a < log_b`, it returns
`log_a + log(1 - exp(log_b - log_a))`, and in the violating case the
argument of the logarithm is negative (IEEE NaN), with no error raised. -/
theorem claim_C9_log_subtract_no_check (loga logb : ℝ) :
    log_subtract loga logb = loga + Real.log (1 - Real.exp (logb - loga))
    ∧ (loga < logb → 1 - Real.exp (logb - loga) < 0) := by
  refine ⟨rfl, fun hab => ?_⟩
  have h1 : (logb - loga) + 1 ≤ Real.exp (logb - loga) := Real.add_one_le_exp _
  linarith

end PNS
